import Mathlib

/-!
Shallow embedding of the `fifo-set` crate (`src/lib.rs`): a FIFO queue with
unique values, `FIFOSet<T>`, composed of a `VecDeque<T>` (field `deq`) and a
`HashSet<T>` (field `set`).

Modelling conventions:
- `VecDeque<T>` is modelled as `List T` (front of the deque = head of the list);
  `HashSet<T>` is modelled as `Finset T` over a type with decidable equality.
- Allocation capacity is tracked abstractly in the field `cap`: the constructors
  record the requested capacity (`new` → 0, `with_capacity n` → `n`), `reserve`
  and a growing `push` keep `cap` at least the length. The real capacity value
  is implementation defined but satisfies the same lower bounds; the claims only
  depend on `capacity ()` distinguishing `new ()` from `with_capacity n`.
- Operations that can panic in Rust (`Index::index`, `VecDeque::swap`,
  `VecDeque::range`) return `Except Unit _`, where `Except.error ()` models the
  panic. Operations that return Rust `Option` return Lean `Option`, and the
  mutating ones return the new state alongside the value.
- `range` takes a half-open `start..end` range, the canonical `RangeBounds`.
-/

set_option autoImplicit false

universe u

variable {α : Type u} [DecidableEq α]

/-- The struct `FIFOSet<T> { deq: VecDeque<T>, set: HashSet<T> }`, with the
abstract allocation capacity of the deque tracked in `cap`. -/
structure FIFOSet (α : Type u) where
  deq : List α
  set : Finset α
  cap : Nat
  deriving DecidableEq

namespace FIFOSet

/-- `FIFOSet::new()`. -/
def new : FIFOSet α :=
  { deq := [], set := ∅, cap := 0 }

/-- `FIFOSet::with_capacity(capacity)`. -/
def with_capacity (capacity : Nat) : FIFOSet α :=
  { deq := [], set := ∅, cap := capacity }

/-- `FIFOSet::get(index)`, delegating to `VecDeque::get`: `None` out of bounds. -/
def get (s : FIFOSet α) (index : Nat) : Option α :=
  s.deq[index]?

/-- `FIFOSet::swap(i, j)`, delegating to `VecDeque::swap`, which panics
(`Except.error ()`) when either index is out of bounds. -/
def swap (s : FIFOSet α) (i j : Nat) : Except Unit (FIFOSet α) :=
  if h : i < s.deq.length ∧ j < s.deq.length then
    Except.ok { s with deq := (s.deq.set i (s.deq.get ⟨j, h.2⟩)).set j (s.deq.get ⟨i, h.1⟩) }
  else
    Except.error ()

/-- `FIFOSet::capacity()`, reading the deque capacity. -/
def capacity (s : FIFOSet α) : Nat :=
  s.cap

/-- `FIFOSet::reserve(additional)`: capacity for at least `additional` more
elements in both sub-structures. -/
def reserve (s : FIFOSet α) (additional : Nat) : FIFOSet α :=
  { s with cap := max s.cap (s.deq.length + additional) }

/-- `FIFOSet::iter()`: the elements in insertion order. -/
def iter (s : FIFOSet α) : List α :=
  s.deq

/-- `FIFOSet::len()`. -/
def len (s : FIFOSet α) : Nat :=
  s.deq.length

/-- `FIFOSet::is_empty()`. -/
def is_empty (s : FIFOSet α) : Bool :=
  s.deq.isEmpty

/-- `FIFOSet::range(lo..hi)`, delegating to `VecDeque::range`, which panics
(`Except.error ()`) when `lo > hi` or `hi > len`. -/
def range (s : FIFOSet α) (lo hi : Nat) : Except Unit (List α) :=
  if lo ≤ hi ∧ hi ≤ s.deq.length then
    Except.ok ((s.deq.drop lo).take (hi - lo))
  else
    Except.error ()

/-- `FIFOSet::clear()`: clears both sub-structures (allocations are kept). -/
def clear (s : FIFOSet α) : FIFOSet α :=
  { s with deq := [], set := ∅ }

/-- `FIFOSet::contains(x)`: membership test on the `HashSet`. -/
def contains (s : FIFOSet α) (x : α) : Bool :=
  decide (x ∈ s.set)

/-- `FIFOSet::peek()`: the front of the deque, without removal. -/
def peek (s : FIFOSet α) : Option α :=
  s.deq.head?

/-- `FIFOSet::pop()`: `deq.pop_front()`, and when a value came out, remove it
from the set. Returns the popped value together with the new state. -/
def pop (s : FIFOSet α) : Option α × FIFOSet α :=
  match s.deq with
  | [] => (none, s)
  | x :: rest => (some x, { s with deq := rest, set := s.set.erase x })

/-- `FIFOSet::remove(index)`: `deq.remove(index)` (`None` out of bounds), and
when a value came out, remove it from the set. Returns the removed value
together with the new state. -/
def remove (s : FIFOSet α) (index : Nat) : Option α × FIFOSet α :=
  match s.deq[index]? with
  | none => (none, s)
  | some v => (some v, { s with deq := s.deq.eraseIdx index, set := s.set.erase v })

/-- `FIFOSet::push(element)`: `if set.insert(element) { deq.push_back(element) }`;
a no-op when `element` is already a member. -/
def push (s : FIFOSet α) (element : α) : FIFOSet α :=
  if element ∈ s.set then s
  else { deq := s.deq ++ [element], set := insert element s.set,
         cap := max s.cap (s.deq.length + 1) }

/-- `Index<usize> for FIFOSet<T>`: `deq.index(index)`, panicking
(`Except.error ()`) when `index` is out of bounds. -/
def index (s : FIFOSet α) (i : Nat) : Except Unit α :=
  match s.deq[i]? with
  | some v => Except.ok v
  | none => Except.error ()

/-- `Extend::extend`: push every item of the source sequence in source order. -/
def extend (s : FIFOSet α) (l : List α) : FIFOSet α :=
  l.foldl push s

/-- `FromIterator::from_iter` on a list source: `with_capacity` of the size
hint (the length, for a list) followed by `extend`. -/
def from_list (l : List α) : FIFOSet α :=
  extend (with_capacity l.length) l

/-- One mutating operation, for claims quantifying over operation sequences. -/
inductive Op (α : Type u) where
  | push (x : α)
  | pop
  | remove (i : Nat)
  | clear

/-- Apply one operation to the state (return values discarded). -/
def applyOp (s : FIFOSet α) : Op α → FIFOSet α
  | Op.push x => s.push x
  | Op.pop => s.pop.2
  | Op.remove i => (s.remove i).2
  | Op.clear => s.clear

/-- Run a finite sequence of operations from a starting state. -/
def run (s : FIFOSet α) (ops : List (Op α)) : FIFOSet α :=
  ops.foldl applyOp s

/-- The dual-structure consistency invariant: the deque holds no duplicates and
the set holds exactly the deque elements. -/
def Inv (s : FIFOSet α) : Prop :=
  s.deq.Nodup ∧ s.deq.toFinset = s.set

/-- Pop repeatedly, with fuel, collecting the returned values in order. -/
def drainFuel : FIFOSet α → Nat → List α
  | _, 0 => []
  | s, n + 1 =>
    match s.pop with
    | (none, _) => []
    | (some x, t) => x :: drainFuel t n

/-- Specification-side build (for the refinement claims): fold the spec push
rule, which appends a value exactly when it is not yet in the accumulated
sequence, over the source. -/
def specPush (acc : List α) (x : α) : List α :=
  if x ∈ acc then acc else acc ++ [x]

/-- Specification-side build from a source sequence: duplicates collapse to
their first occurrence position. -/
def specBuild (l : List α) : List α :=
  l.foldl specPush []

/-- The dual-structure consistency property, spelled out observably: no
duplicates in the sequence, the membership set holds exactly the sequence
elements, and the length equals the cardinality. -/
def Consistent (s : FIFOSet α) : Prop :=
  s.deq.Nodup ∧ (∀ x, x ∈ s.set ↔ x ∈ s.deq) ∧ s.len = s.set.card

/-! Helper lemmas. -/

theorem push_of_mem {s : FIFOSet α} {x : α} (h : x ∈ s.set) : s.push x = s := by
  simp [push, h]

theorem push_of_not_mem {s : FIFOSet α} {x : α} (h : x ∉ s.set) :
    s.push x = { deq := s.deq ++ [x], set := insert x s.set,
                 cap := max s.cap (s.deq.length + 1) } := by
  simp [push, h]

theorem Inv.push {s : FIFOSet α} (hs : Inv s) (x : α) : Inv (s.push x) := by
  by_cases h : x ∈ s.set
  · rwa [push_of_mem h]
  · rw [push_of_not_mem h]
    obtain ⟨hnd, hfin⟩ := hs
    have hxd : x ∉ s.deq := fun hx => h (hfin ▸ List.mem_toFinset.2 hx)
    refine ⟨?_, ?_⟩
    · exact List.nodup_append.2 ⟨hnd, List.nodup_singleton x, by
        intro a ha hax
        rw [List.mem_singleton] at hax
        exact hxd (hax ▸ ha)⟩
    · rw [List.toFinset_append, hfin]
      simp [Finset.insert_eq, Finset.union_comm]

theorem Inv.pop {s : FIFOSet α} (hs : Inv s) : Inv s.pop.2 := by
  obtain ⟨d, st, c⟩ := s
  obtain ⟨hnd, hfin⟩ := hs
  simp only at hnd hfin
  match d with
  | [] => exact ⟨hnd, hfin⟩
  | x :: rest =>
    have hxr : x ∉ rest := (List.nodup_cons.1 hnd).1
    refine ⟨(List.nodup_cons.1 hnd).2, ?_⟩
    show rest.toFinset = st.erase x
    rw [← hfin, List.toFinset_cons, Finset.erase_insert (by simpa using hxr)]

theorem toFinset_eraseIdx {l : List α} (hnd : l.Nodup) :
    ∀ (i : Nat) (h : i < l.length),
      (l.eraseIdx i).toFinset = l.toFinset.erase (l.get ⟨i, h⟩) := by
  induction l with
  | nil => intro i h; exact absurd h (by simp)
  | cons a l ih =>
    intro i h
    have hal : a ∉ l := (List.nodup_cons.1 hnd).1
    match i with
    | 0 =>
      simp only [List.eraseIdx, List.get, List.toFinset_cons]
      rw [Finset.erase_insert (by simpa using hal)]
    | k + 1 =>
      have hk : k < l.length := by simpa using h
      have hv : l.get ⟨k, hk⟩ ∈ l := l.get_mem k hk
      have hav : a ≠ l.get ⟨k, hk⟩ := fun hevil => hal (hevil ▸ hv)
      simp only [List.eraseIdx, List.get, List.toFinset_cons]
      rw [ih (List.nodup_cons.1 hnd).2 k hk, Finset.erase_insert_of_ne hav]

theorem Inv.remove {s : FIFOSet α} (hs : Inv s) (i : Nat) : Inv (s.remove i).2 := by
  obtain ⟨d, st, c⟩ := s
  obtain ⟨hnd, hfin⟩ := hs
  simp only at hnd hfin
  unfold FIFOSet.remove
  simp only
  match hv : d[i]? with
  | none => exact ⟨hnd, hfin⟩
  | some v =>
    have hi : i < d.length := by
      by_contra hge
      rw [List.getElem?_eq_none (Nat.le_of_not_lt hge)] at hv
      exact Option.noConfusion hv
    have hvv : d.get ⟨i, hi⟩ = v := by
      have h2 : d[i]? = some (d.get ⟨i, hi⟩) := by
        rw [List.getElem?_eq_getElem hi, List.get_eq_getElem]
      rw [hv] at h2
      exact (Option.some.inj h2).symm
    refine ⟨?_, ?_⟩
    · exact (List.eraseIdx_sublist d i).nodup hnd
    · show (d.eraseIdx i).toFinset = st.erase v
      rw [toFinset_eraseIdx hnd i hi, hvv, hfin]

theorem Inv.clear {s : FIFOSet α} : Inv (s.clear) := by
  simp [Inv, FIFOSet.clear]

theorem Inv.new : Inv (new : FIFOSet α) := by
  simp [Inv, FIFOSet.new]

theorem Inv.with_capacity (n : Nat) : Inv (with_capacity n : FIFOSet α) := by
  simp [Inv, FIFOSet.with_capacity]

theorem Inv.applyOp {s : FIFOSet α} (hs : Inv s) (o : Op α) : Inv (s.applyOp o) := by
  match o with
  | Op.push x => exact hs.push x
  | Op.pop => exact hs.pop
  | Op.remove i => exact hs.remove i
  | Op.clear => exact Inv.clear

theorem Inv.run {s : FIFOSet α} (hs : Inv s) (ops : List (Op α)) : Inv (s.run ops) := by
  induction ops generalizing s with
  | nil => exact hs
  | cons o ops ih => exact ih (hs.applyOp o)

theorem Inv.extend {s : FIFOSet α} (hs : Inv s) (l : List α) : Inv (s.extend l) := by
  induction l generalizing s with
  | nil => exact hs
  | cons x xs ih => exact ih (hs.push x)

theorem Inv.len_eq_card {s : FIFOSet α} (hs : Inv s) : s.deq.length = s.set.card := by
  rw [← hs.2, List.toFinset_card_of_nodup hs.1]

theorem Inv.consistent {s : FIFOSet α} (hs : Inv s) : Consistent s := by
  refine ⟨hs.1, fun x => ?_, hs.len_eq_card⟩
  rw [← hs.2, List.mem_toFinset]

theorem pop_fst (s : FIFOSet α) : s.pop.1 = s.deq.head? := by
  obtain ⟨d, st, c⟩ := s
  match d with
  | [] => rfl
  | x :: rest => rfl

theorem remove_fst (s : FIFOSet α) (i : Nat) : (s.remove i).1 = s.deq[i]? := by
  obtain ⟨d, st, c⟩ := s
  unfold remove
  simp only
  match hv : d[i]? with
  | none => rfl
  | some v => rfl

theorem pop_empty {s : FIFOSet α} (h : s.deq = []) : s.pop = (none, s) := by
  obtain ⟨d, st, c⟩ := s
  simp only at h
  subst h
  rfl

theorem pop_cons {s : FIFOSet α} {x : α} {rest : List α} (h : s.deq = x :: rest) :
    s.pop = (some x, { deq := rest, set := s.set.erase x, cap := s.cap }) := by
  obtain ⟨d, st, c⟩ := s
  simp only at h
  subst h
  rfl

theorem remove_oob {s : FIFOSet α} {i : Nat} (h : s.deq.length ≤ i) :
    s.remove i = (none, s) := by
  unfold remove
  rw [List.getElem?_eq_none h]

theorem remove_val {s : FIFOSet α} {i : Nat} (h : i < s.deq.length) :
    s.remove i = (some (s.deq.get ⟨i, h⟩),
      { deq := s.deq.eraseIdx i, set := s.set.erase (s.deq.get ⟨i, h⟩),
        cap := s.cap }) := by
  unfold remove
  rw [List.getElem?_eq_getElem h, List.get_eq_getElem]

theorem drainFuel_eq_take (n : Nat) : ∀ s : FIFOSet α, drainFuel s n = s.deq.take n := by
  induction n with
  | zero => intro s; simp [drainFuel]
  | succ n ih =>
    intro s
    match hd : s.deq with
    | [] => simp [drainFuel, FIFOSet.pop, hd]
    | x :: rest =>
      simp only [drainFuel, FIFOSet.pop, hd, List.take]
      rw [ih]

theorem extend_deq_of_disjoint {l : List α} (hnd : l.Nodup) :
    ∀ s : FIFOSet α, (∀ x ∈ l, x ∉ s.set) → (s.extend l).deq = s.deq ++ l := by
  induction l with
  | nil => intro s _; simp [extend]
  | cons x xs ih =>
    intro s hdis
    have hx : x ∉ s.set := hdis x (List.mem_cons_self x xs)
    have hstep : s.extend (x :: xs) = (s.push x).extend xs := by
      simp [extend]
    rw [hstep, ih (List.nodup_cons.1 hnd).2 (s.push x) ?_, push_of_not_mem hx]
    · simp
    · intro y hy
      rw [push_of_not_mem hx]
      simp only [Finset.mem_insert, not_or]
      exact ⟨fun hyx => (List.nodup_cons.1 hnd).1 (hyx ▸ hy),
             hdis y (List.mem_cons_of_mem x hy)⟩

theorem applyOp_deq_set {s t : FIFOSet α} (hd : s.deq = t.deq) (hs : s.set = t.set)
    (o : Op α) :
    (s.applyOp o).deq = (t.applyOp o).deq ∧ (s.applyOp o).set = (t.applyOp o).set := by
  obtain ⟨d, st, c⟩ := s
  obtain ⟨d2, st2, c2⟩ := t
  simp only at hd hs
  subst hd; subst hs
  match o with
  | Op.push x =>
    by_cases h : x ∈ st <;> simp [FIFOSet.applyOp, FIFOSet.push, h]
  | Op.pop =>
    match d with
    | [] => simp [FIFOSet.applyOp, FIFOSet.pop]
    | y :: rest => simp [FIFOSet.applyOp, FIFOSet.pop]
  | Op.remove i =>
    match hv : d[i]? with
    | none => simp [FIFOSet.applyOp, FIFOSet.remove, hv]
    | some v => simp [FIFOSet.applyOp, FIFOSet.remove, hv]
  | Op.clear => simp [FIFOSet.applyOp, FIFOSet.clear]

theorem run_deq_set {s t : FIFOSet α} (hd : s.deq = t.deq) (hs : s.set = t.set)
    (ops : List (Op α)) :
    (s.run ops).deq = (t.run ops).deq ∧ (s.run ops).set = (t.run ops).set := by
  induction ops generalizing s t with
  | nil => exact ⟨hd, hs⟩
  | cons o ops ih =>
    have h1 := applyOp_deq_set hd hs o
    exact ih h1.1 h1.2

theorem extend_eq_run (s : FIFOSet α) (l : List α) :
    s.extend l = s.run (l.map Op.push) := by
  simp [extend, run, List.foldl_map, applyOp]

theorem extend_deq_specFold (l : List α) :
    ∀ s : FIFOSet α, s.set = s.deq.toFinset →
      (s.extend l).deq = l.foldl specPush s.deq ∧
      (s.extend l).set = (s.extend l).deq.toFinset := by
  induction l with
  | nil => intro s h; exact ⟨rfl, h⟩
  | cons x xs ih =>
    intro s h
    have hstep : s.extend (x :: xs) = (s.push x).extend xs := by
      simp [extend]
    have hmem : x ∈ s.set ↔ x ∈ s.deq := by rw [h, List.mem_toFinset]
    by_cases hx : x ∈ s.set
    · have hfold : specPush s.deq x = s.deq := by
        simp [specPush, hmem.1 hx]
      rw [hstep, push_of_mem hx]
      have := ih s h
      rw [List.foldl_cons, hfold]
      exact this
    · have hxd : x ∉ s.deq := fun hc => hx (hmem.2 hc)
      have hfold : specPush s.deq x = s.deq ++ [x] := by
        simp [specPush, hxd]
      rw [hstep, push_of_not_mem hx]
      have hset : (insert x s.set : Finset α) = (s.deq ++ [x]).toFinset := by
        rw [h, List.toFinset_append]
        simp [Finset.insert_eq, Finset.union_comm]
      have := ih { deq := s.deq ++ [x], set := insert x s.set,
                   cap := max s.cap (s.deq.length + 1) } hset
      rw [List.foldl_cons, hfold]
      exact this

omit [DecidableEq α] in
theorem getElem?_eraseIdx_ge {l : List α} :
    ∀ i j : Nat, i < l.length → i ≤ j → (l.eraseIdx i)[j]? = l[j + 1]? := by
  induction l with
  | nil => intro i j hi _; exact absurd hi (by simp)
  | cons a l ih =>
    intro i j hi hij
    match i with
    | 0 => simp [List.eraseIdx]
    | k + 1 =>
      match j with
      | 0 => exact absurd hij (by omega)
      | m + 1 =>
        have hk : k < l.length := by simpa using hi
        simp only [List.eraseIdx, List.getElem?_cons_succ]
        exact ih k m hk (by omega)

end FIFOSet

open FIFOSet

/-- The concrete scenario from the spec: building from `[5, 5, 7, 5, 9]` yields
iteration order `[5, 7, 9]`. -/
theorem from_list_example :
    (FIFOSet.from_list [5, 5, 7, 5, 9] : FIFOSet Nat).iter = [5, 7, 9] := by
  decide

/-- Claim C1: after any finite sequence of push/pop/remove/clear operations on a
queue built by `new`, `with_capacity n`, or `from_list src`, the membership set
contains exactly the elements of the ordered sequence, the ordered sequence has
no duplicates, and its length equals the cardinality of the membership set. -/
theorem C1_invariant_preservation {α : Type u} [DecidableEq α] (n : Nat)
    (src : List α) (ops : List (Op α)) :
    Consistent (run (new : FIFOSet α) ops) ∧
    Consistent (run (with_capacity n : FIFOSet α) ops) ∧
    Consistent (run (from_list src) ops) :=
  ⟨((Inv.new).run ops).consistent,
   ((Inv.with_capacity n).run ops).consistent,
   (((Inv.with_capacity src.length).extend src).run ops).consistent⟩

/-- Claim C2: pushing a value that is already a member is a no-op — the state,
`len`, iteration order and every `get` are unchanged — and pushing the same
value twice in a row leaves the state after the second push equal to the state
after the first. -/
theorem C2_idempotent_push {α : Type u} [DecidableEq α] (s : FIFOSet α) (x : α) :
    (s.contains x = true →
      s.push x = s ∧ (s.push x).len = s.len ∧ (s.push x).iter = s.iter ∧
      ∀ i, (s.push x).get i = s.get i) ∧
    (s.push x).push x = s.push x := by
  constructor
  · intro hc
    have hx : x ∈ s.set := by simpa [FIFOSet.contains] using hc
    rw [push_of_mem hx]
    exact ⟨rfl, rfl, rfl, fun i => rfl⟩
  · by_cases hx : x ∈ s.set
    · rw [push_of_mem hx, push_of_mem hx]
    · have hx2 : x ∈ (s.push x).set := by
        rw [push_of_not_mem hx]
        exact Finset.mem_insert_self x s.set
      rw [push_of_mem hx2]

/-- Witness for C2, at the queue `[1, 2, 3]` and the already-present value 2. -/
theorem C2_idempotent_push_witness :
    (FIFOSet.from_list [1, 2, 3] : FIFOSet Nat).contains 2 = true ∧
    (FIFOSet.from_list [1, 2, 3] : FIFOSet Nat).push 2 = FIFOSet.from_list [1, 2, 3] :=
  ⟨by decide, ((C2_idempotent_push (FIFOSet.from_list [1, 2, 3]) 2).1 (by decide)).1⟩

/-- Claim C3: `pop` returns the front (longest-waiting) element, removing it
from both sub-structures, and returns `none` on an empty queue; consequently,
for every duplicate-free push sequence into an empty queue, repeated `pop`
returns the values in exactly the push order. -/
theorem C3_pop_fifo_order {α : Type u} [DecidableEq α] (s : FIFOSet α) (l : List α) :
    s.pop.1 = s.deq.head? ∧
    (s.deq = [] → s.pop = (none, s)) ∧
    (∀ x rest, s.deq = x :: rest →
      s.pop = (some x, { deq := rest, set := s.set.erase x, cap := s.cap })) ∧
    (l.Nodup → drainFuel ((new : FIFOSet α).extend l) l.length = l) := by
  refine ⟨pop_fst s, fun h => pop_empty h, fun x rest h => pop_cons h, fun hnd => ?_⟩
  have hdeq : ((new : FIFOSet α).extend l).deq = l := by
    rw [extend_deq_of_disjoint hnd (new : FIFOSet α) (by intro x hx; simp [FIFOSet.new])]
    simp [FIFOSet.new]
  rw [drainFuel_eq_take, hdeq, List.take_length]

/-- Witness for C3, at the queue `[3, 1, 2]`: `pop` yields 3, and draining the
pushes of `[3, 1, 2]` returns `[3, 1, 2]`. -/
theorem C3_pop_fifo_order_witness :
    (FIFOSet.from_list [3, 1, 2] : FIFOSet Nat).pop =
      (some 3, { deq := [1, 2],
                 set := (FIFOSet.from_list [3, 1, 2] : FIFOSet Nat).set.erase 3,
                 cap := (FIFOSet.from_list [3, 1, 2] : FIFOSet Nat).cap }) ∧
    (FIFOSet.new : FIFOSet Nat).pop = (none, FIFOSet.new) ∧
    FIFOSet.drainFuel ((FIFOSet.new : FIFOSet Nat).extend [3, 1, 2]) 3 = [3, 1, 2] :=
  ⟨(C3_pop_fifo_order (FIFOSet.from_list [3, 1, 2]) []).2.2.1 3 [1, 2] (by decide),
   (C3_pop_fifo_order (FIFOSet.new : FIFOSet Nat) []).2.1 rfl,
   (C3_pop_fifo_order (FIFOSet.new : FIFOSet Nat) [3, 1, 2]).2.2.2 (by decide)⟩

/-- Claim C4: `remove i` returns `none` and changes nothing when `i` is out of
bounds; at a valid index it removes and returns the element at position `i`,
removes it from both sub-structures, decreases `len` by one, and shifts every
later position down by one. -/
theorem C4_remove_consistency {α : Type u} [DecidableEq α] (s : FIFOSet α) (i : Nat) :
    (s.deq.length ≤ i → s.remove i = (none, s)) ∧
    (∀ h : i < s.deq.length,
      (s.remove i).1 = some (s.deq.get ⟨i, h⟩) ∧
      (s.remove i).2.deq = s.deq.eraseIdx i ∧
      (s.remove i).2.set = s.set.erase (s.deq.get ⟨i, h⟩) ∧
      (s.remove i).2.len = s.len - 1 ∧
      ∀ j, i ≤ j → (s.remove i).2.get j = s.get (j + 1)) := by
  refine ⟨fun h => remove_oob h, fun h => ?_⟩
  rw [remove_val h]
  refine ⟨rfl, rfl, rfl, ?_, fun j hj => ?_⟩
  · show (s.deq.eraseIdx i).length = s.deq.length - 1
    rw [List.length_eraseIdx, if_pos h]
  · show (s.deq.eraseIdx i)[j]? = s.deq[j + 1]?
    exact getElem?_eraseIdx_ge i j h hj

/-- Witness for C4, at the queue `[3, 1, 2]` and index 1 (and out-of-bounds
index 5). -/
theorem C4_remove_consistency_witness :
    ((FIFOSet.from_list [3, 1, 2] : FIFOSet Nat).remove 1).1 = some 1 ∧
    ((FIFOSet.from_list [3, 1, 2] : FIFOSet Nat).remove 1).2.len = 2 ∧
    ((FIFOSet.from_list [3, 1, 2] : FIFOSet Nat).remove 1).2.get 1 =
      (FIFOSet.from_list [3, 1, 2] : FIFOSet Nat).get 2 ∧
    (FIFOSet.from_list [3, 1, 2] : FIFOSet Nat).remove 5 =
      (none, FIFOSet.from_list [3, 1, 2]) :=
  ⟨(((C4_remove_consistency (FIFOSet.from_list [3, 1, 2]) 1).2 (by decide)).1).trans
      (by decide),
   (((C4_remove_consistency (FIFOSet.from_list [3, 1, 2]) 1).2 (by decide)).2.2.2.1).trans
      (by decide),
   ((C4_remove_consistency (FIFOSet.from_list [3, 1, 2]) 1).2 (by decide)).2.2.2.2 1
      (by decide),
   (C4_remove_consistency (FIFOSet.from_list [3, 1, 2]) 5).1 (by decide)⟩

/-- Claim C9: failing accesses are atomic — `pop` on an empty queue and
`remove` at an out-of-bounds index return `none` and leave the whole state
(sequence and membership set) unchanged. -/
theorem C9_failing_access_atomic {α : Type u} [DecidableEq α] (s : FIFOSet α) (i : Nat) :
    (s.deq = [] → s.pop = (none, s)) ∧
    (s.deq.length ≤ i → s.remove i = (none, s)) :=
  ⟨fun h => pop_empty h, fun h => remove_oob h⟩

/-- Witness for C9, at the empty queue and index 0. -/
theorem C9_failing_access_atomic_witness :
    (FIFOSet.new : FIFOSet Nat).pop = (none, FIFOSet.new) ∧
    (FIFOSet.new : FIFOSet Nat).remove 0 = (none, FIFOSet.new) :=
  ⟨(C9_failing_access_atomic (FIFOSet.new : FIFOSet Nat) 0).1 rfl,
   (C9_failing_access_atomic (FIFOSet.new : FIFOSet Nat) 0).2 (by decide)⟩

/-- Claim C10: `remove 0` is equivalent to `pop`: same returned value (`none`
exactly when the queue is empty) and same resulting state. -/
theorem C10_remove_zero_eq_pop {α : Type u} [DecidableEq α] (s : FIFOSet α) :
    s.remove 0 = s.pop ∧ ((s.remove 0).1 = none ↔ s.deq = []) := by
  obtain ⟨d, st, c⟩ := s
  match d with
  | [] => exact ⟨rfl, by simp [FIFOSet.remove]⟩
  | x :: rest =>
    refine ⟨?_, by simp [FIFOSet.remove]⟩
    show FIFOSet.remove ⟨x :: rest, st, c⟩ 0 = FIFOSet.pop ⟨x :: rest, st, c⟩
    unfold FIFOSet.remove FIFOSet.pop
    simp [List.eraseIdx]

/-- Counterexample to claim C5 as stated: `range` does not signal out-of-bounds
bounds via an empty-indicator or a no-op — on the empty queue, `range 0..1`
raises the fatal condition (`VecDeque::range` panics). -/
theorem C5_range_not_lenient_cex :
    (FIFOSet.new : FIFOSet Nat).range 0 1 = Except.error () := by
  simp [FIFOSet.range, FIFOSet.new]

/-- Claim C5, amended: `get` and `remove` signal out-of-bounds via the
empty-indicator or a no-op, `pop` and `peek` on an empty queue return the
empty-indicator, and the strict accessor `queue[index]` raises a fatal
condition for every out-of-bounds index (including `queue[0]` on an empty
queue); `range`, however, also raises a fatal condition on invalid bounds,
and returns a value exactly when the bounds are valid. -/
theorem C5_error_handling_amended {α : Type u} [DecidableEq α] (s : FIFOSet α)
    (i lo hi : Nat) :
    (s.deq.length ≤ i →
      s.get i = none ∧ s.remove i = (none, s) ∧ s.index i = Except.error ()) ∧
    (s.deq = [] → s.pop.1 = none ∧ s.peek = none ∧ s.index 0 = Except.error ()) ∧
    (¬(lo ≤ hi ∧ hi ≤ s.deq.length) → s.range lo hi = Except.error ()) ∧
    ((lo ≤ hi ∧ hi ≤ s.deq.length) → ∃ r, s.range lo hi = Except.ok r) := by
  refine ⟨fun h => ⟨?_, remove_oob h, ?_⟩, fun h => ⟨?_, ?_, ?_⟩, fun h => ?_, fun h => ?_⟩
  · simp [FIFOSet.get, List.getElem?_eq_none h]
  · unfold FIFOSet.index
    rw [List.getElem?_eq_none h]
  · rw [pop_fst, h]
    rfl
  · simp [FIFOSet.peek, h]
  · unfold FIFOSet.index
    rw [List.getElem?_eq_none (by simp [h])]
  · simp [FIFOSet.range, h]
  · exact ⟨(s.deq.drop lo).take (hi - lo), by simp [FIFOSet.range, h]⟩

/-- Witness for the amended C5, on the empty queue with index 0 and the ranges
`0..1` (invalid) and `0..0` (valid). -/
theorem C5_error_handling_amended_witness :
    (FIFOSet.new : FIFOSet Nat).get 0 = none ∧
    (FIFOSet.new : FIFOSet Nat).remove 0 = (none, FIFOSet.new) ∧
    (FIFOSet.new : FIFOSet Nat).peek = none ∧
    (FIFOSet.new : FIFOSet Nat).index 0 = Except.error () ∧
    (FIFOSet.new : FIFOSet Nat).range 0 1 = Except.error () ∧
    ∃ r, (FIFOSet.new : FIFOSet Nat).range 0 0 = Except.ok r :=
  ⟨((C5_error_handling_amended (FIFOSet.new : FIFOSet Nat) 0 0 1).1 (by decide)).1,
   ((C5_error_handling_amended (FIFOSet.new : FIFOSet Nat) 0 0 1).1 (by decide)).2.1,
   ((C5_error_handling_amended (FIFOSet.new : FIFOSet Nat) 0 0 1).2.1 rfl).2.1,
   ((C5_error_handling_amended (FIFOSet.new : FIFOSet Nat) 0 0 1).2.1 rfl).2.2,
   (C5_error_handling_amended (FIFOSet.new : FIFOSet Nat) 0 0 1).2.2.1 (by decide),
   (C5_error_handling_amended (FIFOSet.new : FIFOSet Nat) 0 0 0).2.2.2 (by decide)⟩

/-- Counterexample to claim C6 as stated: `swap` is not total — `swap 0 0` on
the empty queue raises the fatal condition (`VecDeque::swap` panics on any
out-of-bounds index). -/
theorem C6_swap_not_total_cex :
    (FIFOSet.new : FIFOSet Nat).swap 0 0 = Except.error () := by
  simp [FIFOSet.swap, FIFOSet.new]

/-- Claim C6, amended: every public operation is total except the strict
indexed accessor, `swap`, and `range` — `swap i j` raises a fatal condition
exactly when either index is out of bounds, `range lo..hi` exactly when the
bounds are invalid, and `queue[i]` exactly when `i` is out of bounds. All
remaining operations are total functions of the state. -/
theorem C6_totality_amended {α : Type u} [DecidableEq α] (s : FIFOSet α)
    (i j lo hi : Nat) :
    (s.swap i j = Except.error () ↔ ¬(i < s.deq.length ∧ j < s.deq.length)) ∧
    (s.range lo hi = Except.error () ↔ ¬(lo ≤ hi ∧ hi ≤ s.deq.length)) ∧
    (s.index i = Except.error () ↔ s.deq.length ≤ i) := by
  refine ⟨?_, ?_, ?_⟩
  · by_cases h : i < s.deq.length ∧ j < s.deq.length <;> simp [FIFOSet.swap, h]
  · by_cases h : lo ≤ hi ∧ hi ≤ s.deq.length <;> simp [FIFOSet.range, h]
  · by_cases h : s.deq.length ≤ i
    · unfold FIFOSet.index
      rw [List.getElem?_eq_none h]
      simp [h]
    · unfold FIFOSet.index
      rw [List.getElem?_eq_getElem (Nat.lt_of_not_le h)]
      simp [h]

/-- Counterexample to claim C7 as stated: `capacity ()` is a public observer
that distinguishes `with_capacity 1` from `new ()`. -/
theorem C7_capacity_observable_cex :
    (FIFOSet.with_capacity 1 : FIFOSet Nat).capacity ≠
      (FIFOSet.new : FIFOSet Nat).capacity := by
  decide

/-- Claim C7, amended: `with_capacity n` constructs an empty queue that agrees
with `new ()` on every public observer except `capacity ()`, and the agreement
is preserved by every subsequent sequence of push/pop/remove/clear operations:
the sequence contents and membership sets coincide, hence so do `len`, `iter`,
`is_empty`, `peek`, `get`, `contains`, `index`, `range`, and the values
returned by `pop` and `remove`. -/
theorem C7_with_capacity_amended {α : Type u} [DecidableEq α] (n : Nat)
    (ops : List (Op α)) (i lo hi : Nat) (x : α) :
    (run (with_capacity n : FIFOSet α) ops).deq = (run (new : FIFOSet α) ops).deq ∧
    (run (with_capacity n : FIFOSet α) ops).set = (run (new : FIFOSet α) ops).set ∧
    (run (with_capacity n : FIFOSet α) ops).len = (run (new : FIFOSet α) ops).len ∧
    (run (with_capacity n : FIFOSet α) ops).iter = (run (new : FIFOSet α) ops).iter ∧
    (run (with_capacity n : FIFOSet α) ops).is_empty
      = (run (new : FIFOSet α) ops).is_empty ∧
    (run (with_capacity n : FIFOSet α) ops).peek = (run (new : FIFOSet α) ops).peek ∧
    (run (with_capacity n : FIFOSet α) ops).get i = (run (new : FIFOSet α) ops).get i ∧
    (run (with_capacity n : FIFOSet α) ops).contains x
      = (run (new : FIFOSet α) ops).contains x ∧
    (run (with_capacity n : FIFOSet α) ops).index i
      = (run (new : FIFOSet α) ops).index i ∧
    (run (with_capacity n : FIFOSet α) ops).range lo hi
      = (run (new : FIFOSet α) ops).range lo hi ∧
    (run (with_capacity n : FIFOSet α) ops).pop.1 = (run (new : FIFOSet α) ops).pop.1 ∧
    ((run (with_capacity n : FIFOSet α) ops).remove i).1
      = ((run (new : FIFOSet α) ops).remove i).1 := by
  obtain ⟨hd, hs⟩ := run_deq_set (s := with_capacity n) (t := new) rfl rfl ops
  refine ⟨hd, hs, ?_, hd, ?_, ?_, ?_, ?_, ?_, ?_, ?_, ?_⟩
  · simp [FIFOSet.len, hd]
  · simp [FIFOSet.is_empty, hd]
  · simp [FIFOSet.peek, hd]
  · simp [FIFOSet.get, hd]
  · simp [FIFOSet.contains, hs]
  · simp [FIFOSet.index, hd]
  · simp [FIFOSet.range, hd]
  · rw [pop_fst, pop_fst, hd]
  · rw [remove_fst, remove_fst, hd]

/-- Claim C8: bulk-extend applies `push` to each source element in source
order; building from a source list yields the same sequence contents and
membership set as extending a fresh queue, and the resulting order collapses
duplicates to their first occurrence position (the spec-side fold
`specBuild`). -/
theorem C8_build_from_source {α : Type u} [DecidableEq α] (l : List α) (s : FIFOSet α) :
    s.extend l = List.foldl FIFOSet.push s l ∧
    (from_list l).deq = ((new : FIFOSet α).extend l).deq ∧
    (from_list l).set = ((new : FIFOSet α).extend l).set ∧
    ((new : FIFOSet α).extend l).deq = specBuild l ∧
    (from_list l).deq = specBuild l := by
  have hspec : ((new : FIFOSet α).extend l).deq = specBuild l := by
    have h := extend_deq_specFold l (new : FIFOSet α) (by simp [FIFOSet.new])
    simpa [FIFOSet.new, specBuild] using h.1
  have hfrom : (from_list l).deq = ((new : FIFOSet α).extend l).deq ∧
      (from_list l).set = ((new : FIFOSet α).extend l).set := by
    unfold FIFOSet.from_list
    rw [extend_eq_run, extend_eq_run]
    exact run_deq_set (s := with_capacity l.length) (t := new) rfl rfl (l.map Op.push)
  exact ⟨rfl, hfrom.1, hfrom.2, hspec, hfrom.1.trans hspec⟩
